import Mathlib

/-!
Verification of the effimemo budget-constrained conversation reduction engine.

The engine keeps an ordered conversation of chat messages within a hard token
budget.  Four interchangeable reduction strategies (first-truncation,
last-truncation, selective compression, summary compression) consume a
conversation, a budget and a token-counting capability and produce a reduced
conversation.  The definitions below are a shallow embedding of that engine;
the strategy and tokenizer modules themselves are not part of the source tree
available here (only their tests and the package declaration are), so every
engine definition is modelled from the specification, with the concrete
constants (such as the summary marker) pinned by the repository's tests.
-/

namespace Effimemo

/-- Modelled from the spec: message roles (`system`, `developer`, `user`,
`assistant`, `tool`); the enum of §3 of the design document. -/
inductive Role where
  | system
  | developer
  | user
  | assistant
  | tool
deriving DecidableEq

/-- Modelled from the spec: the wire name of a role, used by token accounting. -/
def roleName : Role → String
  | .system => "system"
  | .developer => "developer"
  | .user => "user"
  | .assistant => "assistant"
  | .tool => "tool"

/-- `system` and `developer` are treated equivalently for preservation. -/
def Role.isSystemish : Role → Bool
  | .system => true
  | .developer => true
  | _ => false

/-- Modelled from the spec: one content part; `text` parts are shrinkable,
every other variant is an atomic opaque payload. -/
inductive ContentPart where
  | text (s : String)
  | other (ty : String) (payload : String)
deriving DecidableEq

/-- Modelled from the spec: message content — a plain string, an ordered list
of parts, or absent (valid only alongside tool calls). -/
inductive Content where
  | str (s : String)
  | parts (ps : List ContentPart)
  | absent
deriving DecidableEq

/-- Modelled from the spec: one tool invocation record
`{id, type, function: {name, arguments}}`; atomic, never partially included. -/
structure ToolCall where
  id : String
  type : String
  name : String
  arguments : String
deriving DecidableEq

/-- Modelled from the spec: one conversational turn. -/
structure Message where
  role : Role
  content : Content
  toolCalls : List ToolCall
  toolCallId : Option String
deriving DecidableEq

/-- A token counter is consumed through the narrow capability
`count : text → non-negative integer`. -/
abbrev TokenCounter := String → Nat

/-- Modelled from the spec: accounted cost of a single content part;
non-text parts are counted by a best-effort serialization of their payload. -/
def countPart (cnt : TokenCounter) : ContentPart → Nat
  | .text s => cnt s
  | .other ty payload => cnt ty + cnt payload

/-- Modelled from the spec: accounted cost of a message's content. -/
def countContent (cnt : TokenCounter) : Content → Nat
  | .str s => cnt s
  | .parts ps => (ps.map (countPart cnt)).sum
  | .absent => 0

/-- Modelled from the spec: the fixed per-message overhead of the wire format. -/
def perMessageOverhead : Nat := 4

/-- Modelled from the spec: accounted cost of one tool call (id, type,
function name and arguments all contribute). -/
def countToolCall (cnt : TokenCounter) (c : ToolCall) : Nat :=
  cnt c.id + cnt c.type + cnt c.name + cnt c.arguments

/-- Accounted cost of an optional tool-call-result id. -/
def toolIdCost (cnt : TokenCounter) : Option String → Nat
  | some i => cnt i
  | Option.none => 0

/-- Modelled from the spec: the "field accessor" capability through which the
counter reads a message, so that plain records and foreign object shapes are
accounted identically (§4.1, §9). -/
structure MessageView (α : Type) where
  viewRole : α → Role
  viewContent : α → Content
  viewToolCalls : α → List ToolCall
  viewToolCallId : α → Option String

/-- Modelled from the spec: accounted cost of one message read through a field
accessor: fixed overhead plus per-field cost for role, content, tool calls and
tool-call id. -/
def countMessageVia (cnt : TokenCounter) (V : MessageView α) (x : α) : Nat :=
  perMessageOverhead + cnt (roleName (V.viewRole x)) + countContent cnt (V.viewContent x)
    + ((V.viewToolCalls x).map (countToolCall cnt)).sum + toolIdCost cnt (V.viewToolCallId x)

/-- Modelled from the spec: accounted cost of a conversation read through a
field accessor. -/
def countMessagesVia (cnt : TokenCounter) (V : MessageView α) (xs : List α) : Nat :=
  (xs.map (countMessageVia cnt V)).sum

/-- The identity accessor on the engine's own message representation. -/
def msgView : MessageView Message :=
  ⟨Message.role, Message.content, Message.toolCalls, Message.toolCallId⟩

/-- Accounted cost of one engine message. -/
def countMessage (cnt : TokenCounter) (m : Message) : Nat :=
  countMessageVia cnt msgView m

/-- Accounted cost of a conversation of engine messages. -/
def countMessages (cnt : TokenCounter) (ms : List Message) : Nat :=
  (ms.map (countMessage cnt)).sum

/-- The non-content ("fixed") part of a message's accounted cost. -/
def msgFixed (cnt : TokenCounter) (m : Message) : Nat :=
  perMessageOverhead + cnt (roleName m.role)
    + (m.toolCalls.map (countToolCall cnt)).sum + toolIdCost cnt m.toolCallId

theorem countMessage_eq_fixed_add (cnt : TokenCounter) (m : Message) :
    countMessage cnt m = msgFixed cnt m + countContent cnt m.content := by
  simp [countMessage, countMessageVia, msgView, msgFixed]
  omega

/-- Total accounted cost of the non-text (never shrinkable) parts of a list. -/
def nontextCost (cnt : TokenCounter) : List ContentPart → Nat
  | [] => 0
  | .text _ :: rest => nontextCost cnt rest
  | .other ty payload :: rest => countPart cnt (.other ty payload) + nontextCost cnt rest

/-- The unavoidable accounted cost of a content value: text is shrinkable down
to the empty string, non-text parts are preserved verbatim. -/
def contentFloor (cnt : TokenCounter) : Content → Nat
  | .str _ => cnt ""
  | .parts ps => nontextCost cnt ps
  | .absent => 0

/-- The accounted cost of a message's atomic (never shrinkable) part: a
message carrying tool calls is wholly atomic, otherwise the fixed fields plus
the content floor.  "No single atomic unit whose own accounted cost exceeds
the budget" is rendered as `atomicCost cnt m ≤ budget` for every message. -/
def atomicCost (cnt : TokenCounter) (m : Message) : Nat :=
  if m.toolCalls = [] then msgFixed cnt m + contentFloor cnt m.content
  else countMessage cnt m

/-! ## ContentSplitter -/

/-- The string made of the first `n` characters of `s`. -/
def strTake (s : String) (n : Nat) : String := ⟨s.data.take n⟩

/-- Modelled from the spec: monotone search for the longest character count
`k ≤ n` such that the first `k` characters of `s` cost at most `target`
tokens; `0` when no prefix fits. -/
def fitLen (cnt : TokenCounter) (s : String) (target : Nat) : Nat → Nat
  | 0 => 0
  | n + 1 =>
    if cnt (strTake s (n + 1)) ≤ target then n + 1
    else fitLen cnt s target n

/-- Modelled from the spec: the longest leading piece of `s` whose accounted
cost is at most `target` (ContentSplitter's string-content rule, §4.3). -/
def fitHead (cnt : TokenCounter) (s : String) (target : Nat) : String :=
  strTake s (fitLen cnt s target s.data.length)

/-- Modelled from the spec: ContentSplitter's list-content rule — non-text
parts are preserved unconditionally; each text part is kept if it fits the
text budget `tb`, otherwise replaced by its longest fitting leading piece, or
dropped entirely when not even one character fits (§4.3). -/
def shrinkTextParts (cnt : TokenCounter) : List ContentPart → Nat → List ContentPart
  | [], _ => []
  | .text s :: rest, tb =>
    if cnt s ≤ tb then .text s :: shrinkTextParts cnt rest (tb - cnt s)
    else
      let p := fitHead cnt s tb
      if p.data.isEmpty then shrinkTextParts cnt rest tb
      else .text p :: shrinkTextParts cnt rest (tb - cnt p)
  | .other ty payload :: rest, tb => .other ty payload :: shrinkTextParts cnt rest tb

/-- Modelled from the spec: ContentSplitter — produce a copy of `m` whose
content is reduced so the whole message fits `target` tokens where possible;
structure is preserved and impossibility degrades to minimal content (§4.3). -/
def splitMessage (cnt : TokenCounter) (m : Message) (target : Nat) : Message :=
  let rem := target - msgFixed cnt m
  match m.content with
  | .str s => ⟨m.role, .str (fitHead cnt s rem), m.toolCalls, m.toolCallId⟩
  | .parts ps =>
      ⟨m.role, .parts (shrinkTextParts cnt ps (rem - nontextCost cnt ps)),
        m.toolCalls, m.toolCallId⟩
  | .absent => m

/-! ## Splitter lemmas -/

theorem strTake_zero (s : String) : strTake s 0 = "" := rfl

theorem fitLen_spec (cnt : TokenCounter) (s : String) (target : Nat) :
    ∀ n, fitLen cnt s target n = 0 ∨ cnt (strTake s (fitLen cnt s target n)) ≤ target := by
  intro n
  induction n with
  | zero => exact Or.inl rfl
  | succ k ih =>
    by_cases h : cnt (strTake s (k + 1)) ≤ target
    · right
      simp [fitLen, h]
    · simpa [fitLen, h] using ih

theorem fitHead_cost (cnt : TokenCounter) (s : String) (target : Nat)
    (h0 : cnt "" ≤ target) : cnt (fitHead cnt s target) ≤ target := by
  rcases fitLen_spec cnt s target s.data.length with h | h
  · simp only [fitHead]
    rw [h, strTake_zero]
    exact h0
  · exact h

theorem fitHead_cost_of_ne (cnt : TokenCounter) (s : String) (target : Nat)
    (h : ¬ (fitHead cnt s target).data.isEmpty) :
    cnt (fitHead cnt s target) ≤ target := by
  rcases fitLen_spec cnt s target s.data.length with h0 | h0
  · refine absurd ?_ h
    simp only [fitHead]
    rw [h0, strTake_zero]
    rfl
  · exact h0

/-- Cost of the parts produced by `shrinkTextParts`: the text budget plus the
(preserved) non-text cost is never exceeded. -/
theorem shrinkTextParts_cost (cnt : TokenCounter) :
    ∀ (ps : List ContentPart) (tb : Nat),
      ((shrinkTextParts cnt ps tb).map (countPart cnt)).sum ≤ tb + nontextCost cnt ps := by
  intro ps
  induction ps with
  | nil => intro tb; simp [shrinkTextParts]
  | cons p rest ih =>
    intro tb
    match p with
    | .text s =>
      by_cases h : cnt s ≤ tb
      · have ihx := ih (tb - cnt s)
        simp only [shrinkTextParts, if_pos h, List.map_cons, List.sum_cons,
          nontextCost, countPart]
        omega
      · by_cases hp : (fitHead cnt s tb).data.isEmpty
        · have ihx := ih tb
          simp only [shrinkTextParts, if_neg h, if_pos hp, nontextCost]
          exact ihx
        · have hc := fitHead_cost_of_ne cnt s tb hp
          have ihx := ih (tb - cnt (fitHead cnt s tb))
          simp only [shrinkTextParts, if_neg h, if_neg hp, List.map_cons, List.sum_cons,
            nontextCost, countPart]
          omega
    | .other ty payload =>
      have ihx := ih tb
      simp only [shrinkTextParts, List.map_cons, List.sum_cons, nontextCost]
      omega

/-- ContentSplitter compliance: whenever the atomic part of a message fits the
target, the reduced copy fits the target. -/
theorem splitMessage_cost (cnt : TokenCounter) (m : Message) (target : Nat)
    (h : atomicCost cnt m ≤ target) (htc : m.toolCalls = []) :
    countMessage cnt (splitMessage cnt m target) ≤ target := by
  have hatomic : msgFixed cnt m + contentFloor cnt m.content ≤ target := by
    simpa [atomicCost, htc] using h
  match hm : m.content with
  | .str s =>
    have hfix : msgFixed cnt (splitMessage cnt m target) = msgFixed cnt m := by
      simp [splitMessage, hm, msgFixed]
    have hcontent : (splitMessage cnt m target).content
        = .str (fitHead cnt s (target - msgFixed cnt m)) := by
      simp [splitMessage, hm]
    rw [countMessage_eq_fixed_add, hfix, hcontent]
    have h0 : cnt "" ≤ target - msgFixed cnt m := by
      have : contentFloor cnt m.content = cnt "" := by simp [contentFloor, hm]
      omega
    have := fitHead_cost cnt s (target - msgFixed cnt m) h0
    simp only [countContent]
    omega
  | .parts ps =>
    have hfix : msgFixed cnt (splitMessage cnt m target) = msgFixed cnt m := by
      simp [splitMessage, hm, msgFixed]
    have hfloor : nontextCost cnt ps ≤ target - msgFixed cnt m := by
      have : contentFloor cnt m.content = nontextCost cnt ps := by simp [contentFloor, hm]
      omega
    have hcontent : (splitMessage cnt m target).content
        = .parts (shrinkTextParts cnt ps (target - msgFixed cnt m - nontextCost cnt ps)) := by
      simp [splitMessage, hm]
    rw [countMessage_eq_fixed_add, hfix, hcontent]
    have := shrinkTextParts_cost cnt ps (target - msgFixed cnt m - nontextCost cnt ps)
    simp only [countContent]
    omega
  | .absent =>
    have : splitMessage cnt m target = m := by simp [splitMessage, hm]
    rw [this, countMessage_eq_fixed_add, hm]
    simp only [countContent]
    have : contentFloor cnt m.content = 0 := by simp [contentFloor, hm]
    omega

/-! ## Shrink relations: how an output message may relate to an input one -/

/-- `Leads p s`: the character list `p` is a leading piece of `s`. -/
def Leads (p s : List Char) : Prop := ∃ t, p ++ t = s

theorem Leads.leadsRefl (l : List Char) : Leads l l := ⟨[], List.append_nil l⟩

theorem Leads.leadsTrans {a b c : List Char} (h₁ : Leads a b) (h₂ : Leads b c) : Leads a c := by
  obtain ⟨t₁, ht₁⟩ := h₁
  obtain ⟨t₂, ht₂⟩ := h₂
  exact ⟨t₁ ++ t₂, by rw [← List.append_assoc, ht₁, ht₂]⟩

theorem leads_take (l : List Char) (n : Nat) : Leads (l.take n) l :=
  ⟨l.drop n, List.take_append_drop n l⟩

/-- Content-part-list shrinking: non-text parts are preserved verbatim and in
position; text parts may be kept, replaced by a leading piece, or dropped. -/
inductive PartsShrink : List ContentPart → List ContentPart → Prop where
  | nil : PartsShrink [] []
  | keep (p : ContentPart) {l₁ l₂ : List ContentPart} :
      PartsShrink l₁ l₂ → PartsShrink (p :: l₁) (p :: l₂)
  | shrinkText (p s : String) {l₁ l₂ : List ContentPart} :
      Leads p.data s.data → PartsShrink l₁ l₂ →
      PartsShrink (.text p :: l₁) (.text s :: l₂)
  | dropText (s : String) {l₁ l₂ : List ContentPart} :
      PartsShrink l₁ l₂ → PartsShrink l₁ (.text s :: l₂)

theorem PartsShrink.partsRfl : ∀ l : List ContentPart, PartsShrink l l
  | [] => .nil
  | p :: rest => .keep p (PartsShrink.partsRfl rest)

/-- Shrinking a part list preserves the non-text cost exactly. -/
theorem PartsShrink.nontext_eq (cnt : TokenCounter) {l₁ l₂ : List ContentPart}
    (h : PartsShrink l₁ l₂) : nontextCost cnt l₁ = nontextCost cnt l₂ := by
  induction h with
  | nil => rfl
  | keep p h ih =>
    match p with
    | .text s => simpa [nontextCost] using ih
    | .other ty payload => simp [nontextCost, ih]
  | shrinkText p s hl h ih => simpa [nontextCost] using ih
  | dropText s h ih => simpa [nontextCost] using ih

theorem PartsShrink.partsTrans {a b c : List ContentPart}
    (h₁ : PartsShrink a b) (h₂ : PartsShrink b c) : PartsShrink a c := by
  induction h₂ generalizing a with
  | nil =>
    cases h₁
    exact .nil
  | keep p h ih =>
    cases h₁ with
    | keep _ h' => exact .keep p (ih h')
    | shrinkText q s hl h' => exact .shrinkText q s hl (ih h')
    | dropText _ h' => exact .dropText _ (ih h')
  | shrinkText p s hl h ih =>
    cases h₁ with
    | keep _ h' => exact .shrinkText p s hl (ih h')
    | shrinkText q _ hl' h' => exact .shrinkText q s (hl'.leadsTrans hl) (ih h')
    | dropText _ h' => exact .dropText s (ih h')
  | dropText s h ih => exact .dropText s (ih h₁)

/-- Content shrinking: unchanged, a leading piece of a string, or a part-list
shrink. -/
inductive ContentShrinks : Content → Content → Prop where
  | rfl (c : Content) : ContentShrinks c c
  | str (p s : String) : Leads p.data s.data → ContentShrinks (.str p) (.str s)
  | parts (ps' ps : List ContentPart) : PartsShrink ps' ps →
      ContentShrinks (.parts ps') (.parts ps)

theorem ContentShrinks.contentTrans {a b c : Content}
    (h₁ : ContentShrinks a b) (h₂ : ContentShrinks b c) : ContentShrinks a c := by
  cases h₁ with
  | rfl => exact h₂
  | str p s hl =>
    cases h₂ with
    | rfl => exact .str p s hl
    | str _ u hl' => exact .str p u (hl.leadsTrans hl')
  | parts ps' ps hp =>
    cases h₂ with
    | rfl => exact .parts ps' ps hp
    | parts _ qs hq => exact .parts ps' qs (hp.partsTrans hq)

/-- `Shrinks m' m`: the output message `m'` originates from input message `m`
— either unchanged, or (only for messages without tool calls) with identical
role, tool-call list and tool-call id and shrunk content. -/
def Shrinks (m' m : Message) : Prop :=
  m' = m ∨
    (m.toolCalls = [] ∧ m'.role = m.role ∧ m'.toolCalls = [] ∧
      m'.toolCallId = m.toolCallId ∧ ContentShrinks m'.content m.content)

theorem Shrinks.shrinksRfl (m : Message) : Shrinks m m := Or.inl (Eq.refl m)

theorem Shrinks.shrinksTrans {a b c : Message} (h₁ : Shrinks a b) (h₂ : Shrinks b c) :
    Shrinks a c := by
  cases h₁ with
  | inl h => exact h ▸ h₂
  | inr h =>
    cases h₂ with
    | inl h' => exact Or.inr (h' ▸ h)
    | inr h' =>
      obtain ⟨htc, hrole, htc', hid, hc⟩ := h
      obtain ⟨ktc, krole, ktc', kid, kc⟩ := h'
      exact Or.inr ⟨ktc, hrole.trans krole, htc', hid.trans kid, hc.contentTrans kc⟩

theorem Shrinks.role_eq {a b : Message} (h : Shrinks a b) : a.role = b.role := by
  cases h with
  | inl h => rw [h]
  | inr h => exact h.2.1

theorem Shrinks.toolCalls_eq {a b : Message} (h : Shrinks a b) :
    a.toolCalls = b.toolCalls := by
  cases h with
  | inl h => rw [h]
  | inr h => exact h.2.2.1.trans h.1.symm

/-- The splitter's output shrinks its input (for a message without tool calls). -/
theorem shrinkTextParts_shrinks (cnt : TokenCounter) :
    ∀ (ps : List ContentPart) (tb : Nat), PartsShrink (shrinkTextParts cnt ps tb) ps := by
  intro ps
  induction ps with
  | nil => intro tb; exact .nil
  | cons p rest ih =>
    intro tb
    match p with
    | .text s =>
      by_cases h : cnt s ≤ tb
      · simpa only [shrinkTextParts, if_pos h] using .keep _ (ih (tb - cnt s))
      · by_cases hp : (fitHead cnt s tb).data.isEmpty
        · simpa only [shrinkTextParts, if_neg h, if_pos hp] using .dropText s (ih tb)
        · have hl : Leads (fitHead cnt s tb).data s.data := by
            simp only [fitHead, strTake]
            exact leads_take s.data _
          simpa only [shrinkTextParts, if_neg h, if_neg hp] using
            .shrinkText _ s hl (ih (tb - cnt (fitHead cnt s tb)))
    | .other ty payload =>
      simpa only [shrinkTextParts] using .keep _ (ih tb)

theorem splitMessage_shrinks (cnt : TokenCounter) (m : Message) (target : Nat)
    (htc : m.toolCalls = []) : Shrinks (splitMessage cnt m target) m := by
  match hm : m.content with
  | .str s =>
    refine Or.inr ⟨htc, ?_, ?_, ?_, ?_⟩ <;> simp only [splitMessage, hm]
    · exact htc
    · exact .str _ s (by simp only [fitHead, strTake]; exact leads_take s.data _)
  | .parts ps =>
    refine Or.inr ⟨htc, ?_, ?_, ?_, ?_⟩ <;> simp only [splitMessage, hm]
    · exact htc
    · exact .parts _ ps (shrinkTextParts_shrinks cnt ps _)
  | .absent =>
    exact Or.inl (by simp [splitMessage, hm])

/-- Content shrinking preserves the content floor exactly. -/
theorem ContentShrinks.floor_eq (cnt : TokenCounter) {c' c : Content}
    (h : ContentShrinks c' c) : contentFloor cnt c' = contentFloor cnt c := by
  cases h with
  | rfl => rfl
  | str p s hl => rfl
  | parts ps' ps hp => exact hp.nontext_eq cnt

/-- The splitter does not increase the atomic cost. -/
theorem Shrinks.atomic_le (cnt : TokenCounter) {a b : Message} (h : Shrinks a b) :
    atomicCost cnt a ≤ atomicCost cnt b := by
  cases h with
  | inl h => rw [h]
  | inr h =>
    obtain ⟨htc, hrole, htc', hid, hc⟩ := h
    have hfix : msgFixed cnt a = msgFixed cnt b := by
      simp [msgFixed, hrole, htc, htc', hid]
    simp [atomicCost, htc, htc', hfix, hc.floor_eq cnt]

/-- `ShrunkSub out inp`: `out` is an order-preserving subsequence of `inp` in
which each surviving message may have been content-shrunk. -/
inductive ShrunkSub : List Message → List Message → Prop where
  | nil : ShrunkSub [] []
  | cons {m' m : Message} {l₁ l₂ : List Message} :
      Shrinks m' m → ShrunkSub l₁ l₂ → ShrunkSub (m' :: l₁) (m :: l₂)
  | skip (m : Message) {l₁ l₂ : List Message} :
      ShrunkSub l₁ l₂ → ShrunkSub l₁ (m :: l₂)

theorem ShrunkSub.subRfl : ∀ l : List Message, ShrunkSub l l
  | [] => .nil
  | m :: rest => .cons (Shrinks.shrinksRfl m) (ShrunkSub.subRfl rest)

theorem ShrunkSub.nil_left : ∀ l : List Message, ShrunkSub [] l
  | [] => .nil
  | m :: rest => .skip m (ShrunkSub.nil_left rest)

theorem ShrunkSub.append {a b c d : List Message}
    (h₁ : ShrunkSub a b) (h₂ : ShrunkSub c d) : ShrunkSub (a ++ c) (b ++ d) := by
  induction h₁ with
  | nil => exact h₂
  | cons hs h ih => exact .cons hs ih
  | skip m h ih => exact .skip m ih

theorem ShrunkSub.append_left {a b : List Message} (l : List Message)
    (h : ShrunkSub a b) : ShrunkSub a (l ++ b) := by
  induction l with
  | nil => exact h
  | cons m rest ih => exact .skip m ih

theorem ShrunkSub.drop (k : Nat) : ∀ l : List Message, ShrunkSub (l.drop k) l := by
  induction k with
  | zero => intro l; exact ShrunkSub.subRfl l
  | succ n ih =>
    intro l
    match l with
    | [] => exact .nil
    | m :: rest => exact .skip m (ih rest)

theorem ShrunkSub.eq_nil {a : List Message} (h : ShrunkSub a []) : a = [] := by
  cases h
  rfl

theorem ShrunkSub.subTrans {a b c : List Message}
    (h₁ : ShrunkSub a b) (h₂ : ShrunkSub b c) : ShrunkSub a c := by
  induction h₂ generalizing a with
  | nil => exact h₁
  | cons hs h ih =>
    cases h₁ with
    | cons hs' h' => exact .cons (hs'.shrinksTrans hs) (ih h')
    | skip _ h' => exact .skip _ (ih h')
  | skip m h ih => exact .skip m (ih h₁)

/-- Every output element of a shrunk subsequence originates from some input
element. -/
theorem ShrunkSub.mem {a b : List Message} (h : ShrunkSub a b) :
    ∀ m' ∈ a, ∃ m ∈ b, Shrinks m' m := by
  induction h with
  | nil => intro m' hm'; cases hm'
  | cons hs h ih =>
    intro m' hm'
    cases hm' with
    | head => exact ⟨_, List.mem_cons_self _ _, hs⟩
    | tail _ hm' =>
      obtain ⟨m, hm, hs'⟩ := ih m' hm'
      exact ⟨m, List.mem_cons_of_mem _ hm, hs'⟩
  | skip m h ih =>
    intro m' hm'
    obtain ⟨n, hn, hs'⟩ := ih m' hm'
    exact ⟨n, List.mem_cons_of_mem _ hn, hs'⟩

/-- Decomposing a shrunk subsequence of `a ++ s :: b`: either some image of
`s` survives in the middle, or the output already shrinks `a ++ b`. -/
theorem ShrunkSub.of_append_cons {out b : List Message} {s : Message} :
    ∀ {a : List Message}, ShrunkSub out (a ++ s :: b) →
      (∃ pre s' post, out = pre ++ s' :: post ∧ Shrinks s' s ∧
        ShrunkSub pre a ∧ ShrunkSub post b) ∨ ShrunkSub out (a ++ b) := by
  intro a
  induction a generalizing out with
  | nil =>
    intro h
    cases h with
    | cons hs h' => exact Or.inl ⟨[], _, _, Eq.refl _, hs, .nil, h'⟩
    | skip _ h' => exact Or.inr h'
  | cons x a' ih =>
    intro h
    cases h with
    | cons hs h' =>
      rcases ih h' with ⟨pre, s', post, heq, hs', hpre, hpost⟩ | h''
      · exact Or.inl ⟨_ :: pre, s', post, by rw [heq]; rfl, hs', .cons hs hpre, hpost⟩
      · exact Or.inr (.cons hs h'')
    | skip _ h' =>
      rcases ih h' with ⟨pre, s', post, heq, hs', hpre, hpost⟩ | h''
      · exact Or.inl ⟨pre, s', post, heq, hs', .skip x hpre, hpost⟩
      · exact Or.inr (.skip x h'')

/-! ## Counting helper lemmas -/

theorem countMessages_nil (cnt : TokenCounter) : countMessages cnt [] = 0 := rfl

theorem countMessages_cons (cnt : TokenCounter) (m : Message) (ms : List Message) :
    countMessages cnt (m :: ms) = countMessage cnt m + countMessages cnt ms := by
  simp [countMessages]

theorem countMessages_append (cnt : TokenCounter) (a b : List Message) :
    countMessages cnt (a ++ b) = countMessages cnt a + countMessages cnt b := by
  simp [countMessages]

theorem countMessages_reverse (cnt : TokenCounter) (l : List Message) :
    countMessages cnt l.reverse = countMessages cnt l := by
  simp [countMessages, List.map_reverse, List.sum_reverse]

/-! ## FirstTruncationStrategy -/

/-- Modelled from the spec: the front-to-back walk of FirstTruncationStrategy
(§4.4) — accumulate messages while they fit; attempt to shrink the first
overflowing message against the remaining budget (only when its content is
shrinkable, i.e. it carries no tool calls); then stop, never considering
later messages. -/
def firstWalk (cnt : TokenCounter) : List Message → Nat → List Message
  | [], _ => []
  | m :: rest, rem =>
    if countMessage cnt m ≤ rem then m :: firstWalk cnt rest (rem - countMessage cnt m)
    else if m.toolCalls = [] then
      let m2 := splitMessage cnt m rem
      if countMessage cnt m2 ≤ rem then [m2] else []
    else []

/-- Modelled from the spec: FirstTruncationStrategy.compress (§4.4).  With
`preserveSystem` and a leading system/developer message, that message is
reserved unconditionally; if its own cost exceeds the full budget its content
is shrunk to fit the entire budget and it is returned alone (kept whole when
it is an atomic tool-call message). -/
def firstCompress (cnt : TokenCounter) (preserveSystem : Bool)
    (ms : List Message) (budget : Nat) : List Message :=
  match ms with
  | [] => []
  | m :: rest =>
    if preserveSystem = true ∧ m.role.isSystemish = true then
      if countMessage cnt m ≤ budget then
        m :: firstWalk cnt rest (budget - countMessage cnt m)
      else if m.toolCalls = [] then [splitMessage cnt m budget]
      else [m]
    else firstWalk cnt ms budget

theorem firstWalk_budget (cnt : TokenCounter) :
    ∀ (l : List Message) (rem : Nat), countMessages cnt (firstWalk cnt l rem) ≤ rem := by
  intro l
  induction l with
  | nil => intro rem; simp [firstWalk, countMessages_nil]
  | cons m rest ih =>
    intro rem
    by_cases h : countMessage cnt m ≤ rem
    · have ihx := ih (rem - countMessage cnt m)
      simp only [firstWalk, if_pos h, countMessages_cons]
      omega
    · by_cases htc : m.toolCalls = []
      · by_cases h2 : countMessage cnt (splitMessage cnt m rem) ≤ rem
        · simp only [firstWalk, if_neg h, if_pos htc, if_pos h2, countMessages_cons,
            countMessages_nil]
          omega
        · simp [firstWalk, if_neg h, if_pos htc, if_neg h2, countMessages_nil]
      · simp [firstWalk, if_neg h, if_neg htc, countMessages_nil]

theorem firstWalk_sub (cnt : TokenCounter) :
    ∀ (l : List Message) (rem : Nat), ShrunkSub (firstWalk cnt l rem) l := by
  intro l
  induction l with
  | nil => intro rem; exact .nil
  | cons m rest ih =>
    intro rem
    by_cases h : countMessage cnt m ≤ rem
    · simpa only [firstWalk, if_pos h] using .cons (Shrinks.shrinksRfl m) (ih _)
    · by_cases htc : m.toolCalls = []
      · by_cases h2 : countMessage cnt (splitMessage cnt m rem) ≤ rem
        · simpa only [firstWalk, if_neg h, if_pos htc, if_pos h2] using
            .cons (splitMessage_shrinks cnt m rem htc) (ShrunkSub.nil_left rest)
        · simpa only [firstWalk, if_neg h, if_pos htc, if_neg h2] using
            ShrunkSub.nil_left (m :: rest)
      · simpa only [firstWalk, if_neg h, if_neg htc] using ShrunkSub.nil_left (m :: rest)

theorem firstWalk_all (cnt : TokenCounter) :
    ∀ (l : List Message) (rem : Nat), countMessages cnt l ≤ rem → firstWalk cnt l rem = l := by
  intro l
  induction l with
  | nil => intro rem _; rfl
  | cons m rest ih =>
    intro rem hle
    rw [countMessages_cons] at hle
    have h : countMessage cnt m ≤ rem := by omega
    have ihx := ih (rem - countMessage cnt m) (by omega)
    simp [firstWalk, if_pos h, ihx]

/-! ## LastTruncationStrategy -/

/-- Modelled from the spec: the back-to-front walk of LastTruncationStrategy
(§4.5).  The argument list holds the not-yet-considered messages most-recent
first; the result is in chronological order.  The walk stops at the first
(oldest-considered) message that does not fit; that boundary message's content
is shrunk only when the remaining budget is at least `minCT`
(`minContentTokens`) and it carries no tool calls, otherwise it is dropped. -/
def lastWalk (cnt : TokenCounter) (minCT : Nat) : List Message → Nat → List Message
  | [], _ => []
  | m :: rest, rem =>
    if countMessage cnt m ≤ rem then
      lastWalk cnt minCT rest (rem - countMessage cnt m) ++ [m]
    else if minCT ≤ rem ∧ m.toolCalls = [] then
      let m2 := splitMessage cnt m rem
      if countMessage cnt m2 ≤ rem then [m2] else []
    else []

/-- Modelled from the spec: LastTruncationStrategy.compress (§4.5).  The
leading system/developer message is reserved first (same overflow handling as
FirstTruncationStrategy), then the remaining budget is filled with the most
recent messages; the output is in chronological order, system first. -/
def lastCompress (cnt : TokenCounter) (preserveSystem : Bool) (minCT : Nat)
    (ms : List Message) (budget : Nat) : List Message :=
  match ms with
  | [] => []
  | m :: rest =>
    if preserveSystem = true ∧ m.role.isSystemish = true then
      if countMessage cnt m ≤ budget then
        m :: lastWalk cnt minCT rest.reverse (budget - countMessage cnt m)
      else if m.toolCalls = [] then [splitMessage cnt m budget]
      else [m]
    else lastWalk cnt minCT ms.reverse budget

theorem lastWalk_budget (cnt : TokenCounter) (minCT : Nat) :
    ∀ (l : List Message) (rem : Nat), countMessages cnt (lastWalk cnt minCT l rem) ≤ rem := by
  intro l
  induction l with
  | nil => intro rem; simp [lastWalk, countMessages_nil]
  | cons m rest ih =>
    intro rem
    by_cases h : countMessage cnt m ≤ rem
    · have ihx := ih (rem - countMessage cnt m)
      simp only [lastWalk, if_pos h, countMessages_append, countMessages_cons,
        countMessages_nil]
      omega
    · by_cases htc : minCT ≤ rem ∧ m.toolCalls = []
      · by_cases h2 : countMessage cnt (splitMessage cnt m rem) ≤ rem
        · simp only [lastWalk, if_neg h, if_pos htc, if_pos h2, countMessages_cons,
            countMessages_nil]
          omega
        · simp [lastWalk, if_neg h, if_pos htc, if_neg h2, countMessages_nil]
      · simp [lastWalk, if_neg h, if_neg htc, countMessages_nil]

theorem lastWalk_sub (cnt : TokenCounter) (minCT : Nat) :
    ∀ (l : List Message) (rem : Nat), ShrunkSub (lastWalk cnt minCT l rem) l.reverse := by
  intro l
  induction l with
  | nil => intro rem; exact .nil
  | cons m rest ih =>
    intro rem
    rw [List.reverse_cons]
    by_cases h : countMessage cnt m ≤ rem
    · simpa only [lastWalk, if_pos h] using (ih _).append (ShrunkSub.subRfl [m])
    · by_cases htc : minCT ≤ rem ∧ m.toolCalls = []
      · by_cases h2 : countMessage cnt (splitMessage cnt m rem) ≤ rem
        · simp only [lastWalk, if_neg h, if_pos htc, if_pos h2]
          exact (ShrunkSub.nil_left rest.reverse).append
            (.cons (splitMessage_shrinks cnt m rem htc.2) .nil)
        · simp only [lastWalk, if_neg h, if_pos htc, if_neg h2]
          exact ShrunkSub.nil_left _
      · simp only [lastWalk, if_neg h, if_neg htc]
        exact ShrunkSub.nil_left _

theorem lastWalk_all (cnt : TokenCounter) (minCT : Nat) :
    ∀ (l : List Message) (rem : Nat), countMessages cnt l ≤ rem →
      lastWalk cnt minCT l rem = l.reverse := by
  intro l
  induction l with
  | nil => intro rem _; rfl
  | cons m rest ih =>
    intro rem hle
    rw [countMessages_cons] at hle
    have h : countMessage cnt m ≤ rem := by omega
    have ihx := ih (rem - countMessage cnt m) (by omega)
    simp [lastWalk, if_pos h, ihx]

/-- The hypothesis under which budget compliance is unconditional: whenever a
leading system/developer message will be reserved, its atomic cost fits the
budget. -/
def headAtomicOk (cnt : TokenCounter) (preserveSystem : Bool)
    (ms : List Message) (budget : Nat) : Prop :=
  ∀ m rest, ms = m :: rest → preserveSystem = true → m.role.isSystemish = true →
    atomicCost cnt m ≤ budget

theorem headAtomicOk_of_all (cnt : TokenCounter) (preserveSystem : Bool)
    (ms : List Message) (budget : Nat)
    (H : ∀ m ∈ ms, atomicCost cnt m ≤ budget) :
    headAtomicOk cnt preserveSystem ms budget := by
  intro m rest hms _ _
  exact H m (hms ▸ List.mem_cons_self m rest)

theorem lastCompress_budget (cnt : TokenCounter) (ps : Bool) (minCT : Nat)
    (ms : List Message) (budget : Nat) (H : headAtomicOk cnt ps ms budget) :
    countMessages cnt (lastCompress cnt ps minCT ms budget) ≤ budget := by
  cases ms with
  | nil => simp [lastCompress, countMessages_nil]
  | cons m rest =>
    by_cases hsys : ps = true ∧ m.role.isSystemish = true
    · have hatom := H m rest rfl hsys.1 hsys.2
      by_cases h : countMessage cnt m ≤ budget
      · have hwalk := lastWalk_budget cnt minCT rest.reverse (budget - countMessage cnt m)
        simp only [lastCompress, if_pos hsys, if_pos h, countMessages_cons]
        omega
      · by_cases htc : m.toolCalls = []
        · have hsplit := splitMessage_cost cnt m budget hatom htc
          simp only [lastCompress, if_pos hsys, if_neg h, if_pos htc,
            countMessages_cons, countMessages_nil]
          omega
        · exfalso
          have : atomicCost cnt m = countMessage cnt m := by simp [atomicCost, htc]
          omega
    · simp only [lastCompress, if_neg hsys]
      exact lastWalk_budget cnt minCT (m :: rest).reverse budget

theorem lastCompress_sub (cnt : TokenCounter) (ps : Bool) (minCT : Nat)
    (ms : List Message) (budget : Nat) :
    ShrunkSub (lastCompress cnt ps minCT ms budget) ms := by
  cases ms with
  | nil => exact .nil
  | cons m rest =>
    by_cases hsys : ps = true ∧ m.role.isSystemish = true
    · by_cases h : countMessage cnt m ≤ budget
      · have hwalk := lastWalk_sub cnt minCT rest.reverse (budget - countMessage cnt m)
        rw [List.reverse_reverse] at hwalk
        simpa only [lastCompress, if_pos hsys, if_pos h] using
          ShrunkSub.cons (Shrinks.shrinksRfl m) hwalk
      · by_cases htc : m.toolCalls = []
        · simpa only [lastCompress, if_pos hsys, if_neg h, if_pos htc] using
            ShrunkSub.cons (splitMessage_shrinks cnt m budget htc)
              (ShrunkSub.nil_left rest)
        · simpa only [lastCompress, if_pos hsys, if_neg h, if_neg htc] using
            ShrunkSub.cons (Shrinks.shrinksRfl m) (ShrunkSub.nil_left rest)
    · have hwalk := lastWalk_sub cnt minCT (m :: rest).reverse budget
      rw [List.reverse_reverse] at hwalk
      simpa only [lastCompress, if_neg hsys] using hwalk

theorem lastCompress_all (cnt : TokenCounter) (ps : Bool) (minCT : Nat)
    (ms : List Message) (budget : Nat) (hle : countMessages cnt ms ≤ budget) :
    lastCompress cnt ps minCT ms budget = ms := by
  cases ms with
  | nil => rfl
  | cons m rest =>
    rw [countMessages_cons] at hle
    by_cases hsys : ps = true ∧ m.role.isSystemish = true
    · have h : countMessage cnt m ≤ budget := by omega
      have hwalk := lastWalk_all cnt minCT rest.reverse (budget - countMessage cnt m)
        (by rw [countMessages_reverse]; omega)
      rw [List.reverse_reverse] at hwalk
      simp [lastCompress, if_pos hsys, if_pos h, hwalk]
    · have hwalk := lastWalk_all cnt minCT (m :: rest).reverse budget
        (by rw [countMessages_reverse, countMessages_cons]; omega)
      rw [List.reverse_reverse] at hwalk
      simp only [lastCompress, if_neg hsys]
      exact hwalk

theorem lastCompress_head (cnt : TokenCounter) (ps : Bool) (minCT : Nat)
    (m : Message) (rest : List Message) (budget : Nat)
    (hps : ps = true) (hsysr : m.role.isSystemish = true) :
    ∃ m' t, lastCompress cnt ps minCT (m :: rest) budget = m' :: t ∧ Shrinks m' m := by
  have hsys : ps = true ∧ m.role.isSystemish = true := ⟨hps, hsysr⟩
  by_cases h : countMessage cnt m ≤ budget
  · exact ⟨m, lastWalk cnt minCT rest.reverse (budget - countMessage cnt m),
      by simp only [lastCompress, if_pos hsys, if_pos h], Shrinks.shrinksRfl m⟩
  · by_cases htc : m.toolCalls = []
    · exact ⟨splitMessage cnt m budget, [],
        by simp only [lastCompress, if_pos hsys, if_neg h, if_pos htc],
        splitMessage_shrinks cnt m budget htc⟩
    · exact ⟨m, [], by simp only [lastCompress, if_pos hsys, if_neg h, if_neg htc],
        Shrinks.shrinksRfl m⟩

theorem lastCompress_sys_overflow (cnt : TokenCounter) (ps : Bool) (minCT : Nat)
    (m : Message) (rest : List Message) (budget : Nat)
    (hps : ps = true) (hsysr : m.role.isSystemish = true)
    (hover : budget < countMessage cnt m) (htc : m.toolCalls = []) :
    lastCompress cnt ps minCT (m :: rest) budget = [splitMessage cnt m budget] := by
  have hsys : ps = true ∧ m.role.isSystemish = true := ⟨hps, hsysr⟩
  have h : ¬ countMessage cnt m ≤ budget := by omega
  simp only [lastCompress, if_pos hsys, if_neg h, if_pos htc]

theorem firstCompress_budget (cnt : TokenCounter) (ps : Bool)
    (ms : List Message) (budget : Nat) (H : headAtomicOk cnt ps ms budget) :
    countMessages cnt (firstCompress cnt ps ms budget) ≤ budget := by
  cases ms with
  | nil => simp [firstCompress, countMessages_nil]
  | cons m rest =>
    by_cases hsys : ps = true ∧ m.role.isSystemish = true
    · have hatom := H m rest rfl hsys.1 hsys.2
      by_cases h : countMessage cnt m ≤ budget
      · have hwalk := firstWalk_budget cnt rest (budget - countMessage cnt m)
        simp only [firstCompress, if_pos hsys, if_pos h, countMessages_cons]
        omega
      · by_cases htc : m.toolCalls = []
        · have hsplit := splitMessage_cost cnt m budget hatom htc
          simp only [firstCompress, if_pos hsys, if_neg h, if_pos htc,
            countMessages_cons, countMessages_nil]
          omega
        · exfalso
          have : atomicCost cnt m = countMessage cnt m := by simp [atomicCost, htc]
          omega
    · simp only [firstCompress, if_neg hsys]
      exact firstWalk_budget cnt (m :: rest) budget

theorem firstCompress_sub (cnt : TokenCounter) (ps : Bool)
    (ms : List Message) (budget : Nat) :
    ShrunkSub (firstCompress cnt ps ms budget) ms := by
  cases ms with
  | nil => exact .nil
  | cons m rest =>
    by_cases hsys : ps = true ∧ m.role.isSystemish = true
    · by_cases h : countMessage cnt m ≤ budget
      · simpa only [firstCompress, if_pos hsys, if_pos h] using
          ShrunkSub.cons (Shrinks.shrinksRfl m) (firstWalk_sub cnt rest _)
      · by_cases htc : m.toolCalls = []
        · simpa only [firstCompress, if_pos hsys, if_neg h, if_pos htc] using
            ShrunkSub.cons (splitMessage_shrinks cnt m budget htc)
              (ShrunkSub.nil_left rest)
        · simpa only [firstCompress, if_pos hsys, if_neg h, if_neg htc] using
            ShrunkSub.cons (Shrinks.shrinksRfl m) (ShrunkSub.nil_left rest)
    · simpa only [firstCompress, if_neg hsys] using firstWalk_sub cnt (m :: rest) budget

theorem firstCompress_all (cnt : TokenCounter) (ps : Bool)
    (ms : List Message) (budget : Nat) (hle : countMessages cnt ms ≤ budget) :
    firstCompress cnt ps ms budget = ms := by
  cases ms with
  | nil => rfl
  | cons m rest =>
    rw [countMessages_cons] at hle
    by_cases hsys : ps = true ∧ m.role.isSystemish = true
    · have h : countMessage cnt m ≤ budget := by omega
      have hwalk := firstWalk_all cnt rest (budget - countMessage cnt m) (by omega)
      simp [firstCompress, if_pos hsys, if_pos h, hwalk]
    · have hwalk := firstWalk_all cnt (m :: rest) budget
        (by rw [countMessages_cons]; omega)
      simp [firstCompress, if_neg hsys, hwalk]

theorem firstCompress_head (cnt : TokenCounter) (ps : Bool)
    (m : Message) (rest : List Message) (budget : Nat)
    (hps : ps = true) (hsysr : m.role.isSystemish = true) :
    ∃ m' t, firstCompress cnt ps (m :: rest) budget = m' :: t ∧ Shrinks m' m := by
  have hsys : ps = true ∧ m.role.isSystemish = true := ⟨hps, hsysr⟩
  by_cases h : countMessage cnt m ≤ budget
  · exact ⟨m, firstWalk cnt rest (budget - countMessage cnt m),
      by simp only [firstCompress, if_pos hsys, if_pos h], Shrinks.shrinksRfl m⟩
  · by_cases htc : m.toolCalls = []
    · exact ⟨splitMessage cnt m budget, [],
        by simp only [firstCompress, if_pos hsys, if_neg h, if_pos htc],
        splitMessage_shrinks cnt m budget htc⟩
    · exact ⟨m, [], by simp only [firstCompress, if_pos hsys, if_neg h, if_neg htc],
        Shrinks.shrinksRfl m⟩

theorem firstCompress_sys_overflow (cnt : TokenCounter) (ps : Bool)
    (m : Message) (rest : List Message) (budget : Nat)
    (hps : ps = true) (hsysr : m.role.isSystemish = true)
    (hover : budget < countMessage cnt m) (htc : m.toolCalls = []) :
    firstCompress cnt ps (m :: rest) budget = [splitMessage cnt m budget] := by
  have hsys : ps = true ∧ m.role.isSystemish = true := ⟨hps, hsysr⟩
  have h : ¬ countMessage cnt m ≤ budget := by omega
  simp only [firstCompress, if_pos hsys, if_neg h, if_pos htc]

/-! ## SelectiveCompressionStrategy -/

def Role.isTool : Role → Bool
  | .tool => true
  | _ => false

/-- Modelled from the spec: which messages form half of an adjacent
tool-call/tool-result pair and are therefore kept atomic (pinned) by
SelectiveCompressionStrategy (§4.6).  The first argument is the preceding
message, if any. -/
def pinFlags : Option Message → List Message → List Bool
  | _, [] => []
  | prev, m :: rest =>
    ((!m.toolCalls.isEmpty &&
        (match rest with | n :: _ => n.role.isTool | [] => false))
      || (m.role.isTool &&
        (match prev with | some p => !p.toolCalls.isEmpty | Option.none => false)))
      :: pinFlags (some m) rest

/-- Modelled from the spec: tag every message with its pinned flag; the
leading system/developer message is additionally pinned when
`preserveSystem` is set (§4.6). -/
def tagPinned (preserveSystem : Bool) (ms : List Message) : List (Bool × Message) :=
  match (pinFlags Option.none ms).zip ms with
  | [] => []
  | (f, m) :: rest => (f || (preserveSystem && m.role.isSystemish), m) :: rest

/-- Modelled from the spec: the default `minContentTokens` threshold (a small
positive constant) used when LastTruncationStrategy is entered as a fallback. -/
def defaultMinContentTokens : Nat := 10

/-- Modelled from the spec: the candidate walk of SelectiveCompressionStrategy
(§4.6) — process messages oldest first; stop as soon as the recomputed total
fits the budget; keep pinned messages; shrink a shrinkable candidate towards
`currentCost × (1 − reduceRatio)` (the ratio is a percentage here); drop an
atomic candidate entirely. -/
def selectiveLoop (cnt : TokenCounter) (reducePct budget : Nat) :
    List Message → List (Bool × Message) → List Message
  | acc, [] => acc
  | acc, (pin, m) :: rest =>
    if countMessages cnt acc + countMessages cnt (m :: rest.map Prod.snd) ≤ budget then
      acc ++ m :: rest.map Prod.snd
    else if pin = true then
      selectiveLoop cnt reducePct budget (acc ++ [m]) rest
    else if m.toolCalls = [] ∧ m.content ≠ .absent then
      selectiveLoop cnt reducePct budget
        (acc ++ [splitMessage cnt m (countMessage cnt m * (100 - reducePct) / 100)]) rest
    else selectiveLoop cnt reducePct budget acc rest

/-- Modelled from the spec: SelectiveCompressionStrategy.compress (§4.6).
If the conversation already fits, it is returned unchanged.  Otherwise the
candidate walk reduces it; if the budget is still exceeded when candidates are
exhausted, LastTruncationStrategy is applied to the partially-reduced result
as a last resort. -/
def selectiveCompress (cnt : TokenCounter) (preserveSystem : Bool) (reducePct : Nat)
    (ms : List Message) (budget : Nat) : List Message :=
  if countMessages cnt ms ≤ budget then ms
  else
    let reduced := selectiveLoop cnt reducePct budget [] (tagPinned preserveSystem ms)
    if countMessages cnt reduced ≤ budget then reduced
    else lastCompress cnt preserveSystem defaultMinContentTokens reduced budget

theorem zip_map_snd : ∀ (fs : List Bool) (l : List Message), fs.length = l.length →
    ((fs.zip l).map Prod.snd) = l := by
  intro fs
  induction fs with
  | nil =>
    intro l hl
    cases l with
    | nil => rfl
    | cons m rest => cases hl
  | cons f fs' ih =>
    intro l hl
    cases l with
    | nil => cases hl
    | cons m rest =>
      simp only [List.zip_cons_cons, List.map_cons]
      rw [ih rest (by simpa using hl)]

theorem pinFlags_length : ∀ (prev : Option Message) (l : List Message),
    (pinFlags prev l).length = l.length := by
  intro prev l
  induction l generalizing prev with
  | nil => rfl
  | cons m rest ih => simp [pinFlags, ih]

theorem tagPinned_map_snd (ps : Bool) (ms : List Message) :
    (tagPinned ps ms).map Prod.snd = ms := by
  cases ms with
  | nil => rfl
  | cons m rest =>
    have : tagPinned ps (m :: rest)
        = (_, m) :: (pinFlags (some m) rest).zip rest := rfl
    rw [this, List.map_cons]
    simp only
    rw [zip_map_snd _ rest (pinFlags_length (some m) rest)]

theorem selectiveLoop_shape (cnt : TokenCounter) (pct budget : Nat) :
    ∀ (todo : List (Bool × Message)) (acc : List Message),
      ∃ t, selectiveLoop cnt pct budget acc todo = acc ++ t ∧
        ShrunkSub t (todo.map Prod.snd) := by
  intro todo
  induction todo with
  | nil => intro acc; exact ⟨[], by simp [selectiveLoop], .nil⟩
  | cons pm rest ih =>
    intro acc
    obtain ⟨pin, m⟩ := pm
    by_cases hstop : countMessages cnt acc
        + countMessages cnt (m :: rest.map Prod.snd) ≤ budget
    · refine ⟨m :: rest.map Prod.snd, ?_, ShrunkSub.subRfl _⟩
      simp [selectiveLoop, if_pos hstop]
    · by_cases hpin : pin = true
      · obtain ⟨t, ht, hsub⟩ := ih (acc ++ [m])
        refine ⟨m :: t, ?_, .cons (Shrinks.shrinksRfl m) hsub⟩
        simp only [selectiveLoop, if_neg hstop, if_pos hpin, ht, List.append_assoc,
          List.singleton_append]
      · by_cases hshr : m.toolCalls = [] ∧ m.content ≠ .absent
        · obtain ⟨t, ht, hsub⟩ :=
            ih (acc ++ [splitMessage cnt m (countMessage cnt m * (100 - pct) / 100)])
          refine ⟨splitMessage cnt m (countMessage cnt m * (100 - pct) / 100) :: t, ?_,
            .cons (splitMessage_shrinks cnt m _ hshr.1) hsub⟩
          simp only [selectiveLoop, if_neg hstop, if_neg hpin, if_pos hshr, ht,
            List.append_assoc, List.singleton_append]
        · obtain ⟨t, ht, hsub⟩ := ih acc
          refine ⟨t, ?_, .skip m hsub⟩
          simp only [selectiveLoop, if_neg hstop, if_neg hpin, if_neg hshr, ht]

/-- The candidate walk produces a shrunk subsequence of the input. -/
theorem selectiveReduced_sub (cnt : TokenCounter) (ps : Bool) (pct : Nat)
    (ms : List Message) (budget : Nat) :
    ShrunkSub (selectiveLoop cnt pct budget [] (tagPinned ps ms)) ms := by
  obtain ⟨t, ht, hsub⟩ := selectiveLoop_shape cnt pct budget (tagPinned ps ms) []
  rw [ht, List.nil_append]
  rw [tagPinned_map_snd ps ms] at hsub
  exact hsub

theorem selectiveCompress_sub (cnt : TokenCounter) (ps : Bool) (pct : Nat)
    (ms : List Message) (budget : Nat) :
    ShrunkSub (selectiveCompress cnt ps pct ms budget) ms := by
  by_cases hunder : countMessages cnt ms ≤ budget
  · simpa only [selectiveCompress, if_pos hunder] using ShrunkSub.subRfl ms
  · have hred := selectiveReduced_sub cnt ps pct ms budget
    by_cases hfit : countMessages cnt (selectiveLoop cnt pct budget []
        (tagPinned ps ms)) ≤ budget
    · simpa only [selectiveCompress, if_neg hunder, if_pos hfit] using hred
    · simp only [selectiveCompress, if_neg hunder, if_neg hfit]
      exact (lastCompress_sub cnt ps defaultMinContentTokens _ budget).subTrans hred

theorem selectiveCompress_budget (cnt : TokenCounter) (ps : Bool) (pct : Nat)
    (ms : List Message) (budget : Nat)
    (H : ∀ m ∈ ms, atomicCost cnt m ≤ budget) :
    countMessages cnt (selectiveCompress cnt ps pct ms budget) ≤ budget := by
  by_cases hunder : countMessages cnt ms ≤ budget
  · simpa only [selectiveCompress, if_pos hunder] using hunder
  · have hred := selectiveReduced_sub cnt ps pct ms budget
    by_cases hfit : countMessages cnt (selectiveLoop cnt pct budget []
        (tagPinned ps ms)) ≤ budget
    · simpa only [selectiveCompress, if_neg hunder, if_pos hfit] using hfit
    · simp only [selectiveCompress, if_neg hunder, if_neg hfit]
      refine lastCompress_budget cnt ps defaultMinContentTokens _ budget ?_
      intro m rest hms _ _
      obtain ⟨m₀, hm₀, hs⟩ := hred.mem m (hms ▸ List.mem_cons_self m rest)
      exact le_trans (hs.atomic_le cnt) (H m₀ hm₀)

theorem selectiveCompress_all (cnt : TokenCounter) (ps : Bool) (pct : Nat)
    (ms : List Message) (budget : Nat) (hle : countMessages cnt ms ≤ budget) :
    selectiveCompress cnt ps pct ms budget = ms := by
  simp only [selectiveCompress, if_pos hle]

theorem tagPinned_head (ps : Bool) (m : Message) (rest : List Message) :
    ∃ f : Bool, tagPinned ps (m :: rest)
      = (f || (ps && m.role.isSystemish), m) :: (pinFlags (some m) rest).zip rest :=
  ⟨_, Eq.refl _⟩

/-- A pinned leading message survives the candidate walk, unchanged and in
first position. -/
theorem selectiveLoop_pinned_head (cnt : TokenCounter) (pct budget : Nat)
    (m : Message) (z : List (Bool × Message))
    (hstop : ¬ countMessages cnt (m :: z.map Prod.snd) ≤ budget) :
    ∃ t, selectiveLoop cnt pct budget [] ((true, m) :: z) = m :: t ∧
      ShrunkSub t (z.map Prod.snd) := by
  have hstop' : ¬ (countMessages cnt []
      + countMessages cnt (m :: z.map Prod.snd) ≤ budget) := by
    rw [countMessages_nil]
    omega
  obtain ⟨t, ht, hsub⟩ := selectiveLoop_shape cnt pct budget z ([] ++ [m])
  refine ⟨t, ?_, hsub⟩
  simp only [selectiveLoop, if_neg hstop']
  rw [if_pos trivial, ht]
  simp

/-- In the over-budget case with a pinned leading system message, the
candidate walk keeps that message, unchanged, in first position. -/
theorem selectiveReduced_head (cnt : TokenCounter) (ps : Bool) (pct : Nat)
    (m : Message) (rest : List Message) (budget : Nat)
    (hps : ps = true) (hsysr : m.role.isSystemish = true)
    (hover : ¬ countMessages cnt (m :: rest) ≤ budget) :
    ∃ t, selectiveLoop cnt pct budget [] (tagPinned ps (m :: rest)) = m :: t ∧
      ShrunkSub t rest := by
  obtain ⟨f, hf⟩ := tagPinned_head ps m rest
  have hflag : (f || (ps && m.role.isSystemish)) = true := by
    rw [hps, hsysr]
    simp
  rw [hflag] at hf
  have hmapsnd : ((pinFlags (some m) rest).zip rest).map Prod.snd = rest :=
    zip_map_snd _ rest (pinFlags_length (some m) rest)
  have hstop : ¬ countMessages cnt
      (m :: ((pinFlags (some m) rest).zip rest).map Prod.snd) ≤ budget := by
    rw [hmapsnd]
    exact hover
  obtain ⟨t, ht, hsub⟩ := selectiveLoop_pinned_head cnt pct budget m
    ((pinFlags (some m) rest).zip rest) hstop
  rw [hmapsnd] at hsub
  exact ⟨t, by rw [hf]; exact ht, hsub⟩

theorem selectiveCompress_head (cnt : TokenCounter) (ps : Bool) (pct : Nat)
    (m : Message) (rest : List Message) (budget : Nat)
    (hps : ps = true) (hsysr : m.role.isSystemish = true) :
    ∃ m' t, selectiveCompress cnt ps pct (m :: rest) budget = m' :: t ∧
      Shrinks m' m := by
  by_cases hunder : countMessages cnt (m :: rest) ≤ budget
  · exact ⟨m, rest, by simp only [selectiveCompress, if_pos hunder], Shrinks.shrinksRfl m⟩
  · obtain ⟨t, ht, hsub⟩ := selectiveReduced_head cnt ps pct m rest budget hps hsysr hunder
    by_cases hfit : countMessages cnt (selectiveLoop cnt pct budget []
        (tagPinned ps (m :: rest))) ≤ budget
    · exact ⟨m, t, by simp only [selectiveCompress, if_neg hunder, if_pos hfit]; exact ht,
        Shrinks.shrinksRfl m⟩
    · obtain ⟨m', t', hout, hs⟩ :=
        lastCompress_head cnt ps defaultMinContentTokens m t budget hps hsysr
      refine ⟨m', t', ?_, hs⟩
      simp only [selectiveCompress, if_neg hunder, if_neg hfit]
      rw [ht]
      exact hout

theorem selectiveCompress_sys_overflow (cnt : TokenCounter) (ps : Bool) (pct : Nat)
    (m : Message) (rest : List Message) (budget : Nat)
    (hps : ps = true) (hsysr : m.role.isSystemish = true)
    (hover : budget < countMessage cnt m) (htc : m.toolCalls = []) :
    selectiveCompress cnt ps pct (m :: rest) budget = [splitMessage cnt m budget] := by
  have hunder : ¬ countMessages cnt (m :: rest) ≤ budget := by
    rw [countMessages_cons]
    omega
  obtain ⟨t, ht, hsub⟩ := selectiveReduced_head cnt ps pct m rest budget hps hsysr hunder
  have hfit : ¬ countMessages cnt (selectiveLoop cnt pct budget []
      (tagPinned ps (m :: rest))) ≤ budget := by
    rw [ht, countMessages_cons]
    omega
  simp only [selectiveCompress, if_neg hunder, if_neg hfit]
  rw [ht]
  exact lastCompress_sys_overflow cnt ps defaultMinContentTokens m t budget hps hsysr hover htc

/-! ## SummaryCompressionStrategy -/

/-- Modelled from the spec: best-effort plain text of a content value, used
when rendering the head region into a transcript. -/
def contentText : Content → String
  | .str s => s
  | .parts ps => String.join (ps.map fun p =>
      match p with
      | .text t => t
      | .other ty payload => ty ++ payload)
  | .absent => ""

/-- Modelled from the spec: one line of the linear transcript handed to the
summarization capability. -/
def renderMessage (m : Message) : String :=
  roleName m.role ++ ": " ++ contentText m.content ++ "\n"

/-- Modelled from the spec: the head region rendered as a linear transcript. -/
def renderTranscript (ms : List Message) : String :=
  String.join (ms.map renderMessage)

/-- The fixed marker identifying a generated summary; the repository's tests
pin this constant (they check that the summary message contains it). -/
def summaryMarker : String := "[对话摘要]"

/-- Modelled from the spec: the single synthetic summary message — role
`user`, content prefixed with the fixed marker, no tool calls (§4.7). -/
def mkSummaryMessage (s : String) : Message :=
  ⟨Role.user, Content.str (summaryMarker ++ " " ++ s), [], Option.none⟩

/-- Modelled from the spec: split a conversation into the reserved system
part, the head region to be summarized, and the last `preserveRecent`
messages kept verbatim (§4.7). -/
def splitForSummary (preserveSystem : Bool) (preserveRecent : Nat)
    (ms : List Message) : List Message × List Message × List Message :=
  match ms with
  | [] => ([], [], [])
  | m :: rest =>
    if preserveSystem = true ∧ m.role.isSystemish = true then
      ([m], rest.take (rest.length - preserveRecent),
        rest.drop (rest.length - preserveRecent))
    else
      ([], (m :: rest).take ((m :: rest).length - preserveRecent),
        (m :: rest).drop ((m :: rest).length - preserveRecent))

/-- Modelled from the spec: SummaryCompressionStrategy.compress (§4.7).
With an empty head region, or when the summarization capability fails, it
behaves as LastTruncationStrategy on the original conversation; otherwise it
assembles `[system?, summaryMessage, ...tail]` and, if that still exceeds the
budget, applies LastTruncationStrategy to the assembled result. -/
def summaryCompress (cnt : TokenCounter) (preserveSystem : Bool)
    (preserveRecent minCT : Nat) (summarize : String → Except String String)
    (ms : List Message) (budget : Nat) : List Message :=
  let parts := splitForSummary preserveSystem preserveRecent ms
  if parts.2.1 = [] then lastCompress cnt preserveSystem minCT ms budget
  else
    match summarize (renderTranscript parts.2.1) with
    | .error _ => lastCompress cnt preserveSystem minCT ms budget
    | .ok s =>
      let assembled := parts.1 ++ mkSummaryMessage s :: parts.2.2
      if countMessages cnt assembled ≤ budget then assembled
      else lastCompress cnt preserveSystem minCT assembled budget

/-- Dropping the summarized head region leaves a shrunk subsequence of the
input conversation. -/
theorem splitForSummary_side (ps : Bool) (pr : Nat) (ms : List Message) :
    ShrunkSub ((splitForSummary ps pr ms).1 ++ (splitForSummary ps pr ms).2.2) ms := by
  cases ms with
  | nil => exact .nil
  | cons m rest =>
    by_cases hsys : ps = true ∧ m.role.isSystemish = true
    · simp only [splitForSummary, if_pos hsys]
      exact .cons (Shrinks.shrinksRfl m) (ShrunkSub.drop _ rest)
    · simp only [splitForSummary, if_neg hsys, List.nil_append]
      exact ShrunkSub.drop _ (m :: rest)

/-- The tail region is a suffix of the input of length at most
`preserveRecent`. -/
theorem splitForSummary_tail (ps : Bool) (pr : Nat) (ms : List Message) :
    ∃ k, (splitForSummary ps pr ms).2.2 = ms.drop k ∧
      (splitForSummary ps pr ms).2.2.length ≤ pr := by
  cases ms with
  | nil => exact ⟨0, Eq.refl _, by simp [splitForSummary]⟩
  | cons m rest =>
    by_cases hsys : ps = true ∧ m.role.isSystemish = true
    · refine ⟨rest.length - pr + 1, ?_, ?_⟩
      · simp [splitForSummary, if_pos hsys]
      · simp only [splitForSummary, if_pos hsys, List.length_drop]
        omega
    · refine ⟨(m :: rest).length - pr, ?_, ?_⟩
      · simp [splitForSummary, if_neg hsys]
      · simp only [splitForSummary, if_neg hsys, List.length_drop]
        omega

theorem summaryCompress_budget (cnt : TokenCounter) (ps : Bool) (pr minCT : Nat)
    (summarize : String → Except String String) (ms : List Message) (budget : Nat)
    (H : headAtomicOk cnt ps ms budget) :
    countMessages cnt (summaryCompress cnt ps pr minCT summarize ms budget) ≤ budget := by
  by_cases hhead : (splitForSummary ps pr ms).2.1 = []
  · simp only [summaryCompress, if_pos hhead]
    exact lastCompress_budget cnt ps minCT ms budget H
  · simp only [summaryCompress, if_neg hhead]
    match hs : summarize (renderTranscript (splitForSummary ps pr ms).2.1) with
    | .error e =>
      exact lastCompress_budget cnt ps minCT ms budget H
    | .ok s =>
      by_cases hfit : countMessages cnt
          ((splitForSummary ps pr ms).1 ++ mkSummaryMessage s
            :: (splitForSummary ps pr ms).2.2) ≤ budget
      · simpa only [if_pos hfit] using hfit
      · simp only [if_neg hfit]
        refine lastCompress_budget cnt ps minCT _ budget ?_
        intro m0 rest0 hasm hps hsysr
        cases ms with
        | nil => simp [splitForSummary] at hhead
        | cons m rest =>
          by_cases hsys : ps = true ∧ m.role.isSystemish = true
          · have h1 : (splitForSummary ps pr (m :: rest)).1 = [m] := by
              simp [splitForSummary, if_pos hsys]
            rw [h1] at hasm
            have hm0 : m0 = m :=
              (by simpa using congrArg (fun l => l.head?) hasm : m = m0).symm
            rw [hm0]
            exact H m rest (Eq.refl _) hsys.1 hsys.2
          · have h1 : (splitForSummary ps pr (m :: rest)).1 = [] := by
              simp [splitForSummary, if_neg hsys]
            rw [h1] at hasm
            have hm0 : m0 = mkSummaryMessage s :=
              (by simpa using congrArg (fun l => l.head?) hasm :
                mkSummaryMessage s = m0).symm
            rw [hm0] at hsysr
            simp [mkSummaryMessage, Role.isSystemish] at hsysr

/-- The output of the summary strategy: either a shrunk subsequence of the
input, or such a subsequence with one synthetic user message (without tool
calls) inserted. -/
theorem summaryCompress_shape (cnt : TokenCounter) (ps : Bool) (pr minCT : Nat)
    (summarize : String → Except String String) (ms : List Message) (budget : Nat) :
    ShrunkSub (summaryCompress cnt ps pr minCT summarize ms budget) ms ∨
      ∃ pre s post, summaryCompress cnt ps pr minCT summarize ms budget
          = pre ++ s :: post ∧ s.role = Role.user ∧ s.toolCalls = [] ∧
        ShrunkSub (pre ++ post) ms := by
  by_cases hhead : (splitForSummary ps pr ms).2.1 = []
  · simp only [summaryCompress, if_pos hhead]
    exact Or.inl (lastCompress_sub cnt ps minCT ms budget)
  · simp only [summaryCompress, if_neg hhead]
    match hs : summarize (renderTranscript (splitForSummary ps pr ms).2.1) with
    | .error e =>
      exact Or.inl (lastCompress_sub cnt ps minCT ms budget)
    | .ok s =>
      have hside := splitForSummary_side ps pr ms
      by_cases hfit : countMessages cnt
          ((splitForSummary ps pr ms).1 ++ mkSummaryMessage s
            :: (splitForSummary ps pr ms).2.2) ≤ budget
      · refine Or.inr ⟨(splitForSummary ps pr ms).1, mkSummaryMessage s,
          (splitForSummary ps pr ms).2.2, ?_, Eq.refl _, Eq.refl _, hside⟩
        simp only [if_pos hfit]
      · simp only [if_neg hfit]
        have hsub := lastCompress_sub cnt ps minCT
          ((splitForSummary ps pr ms).1 ++ mkSummaryMessage s
            :: (splitForSummary ps pr ms).2.2) budget
        rcases hsub.of_append_cons with
          ⟨pre, s', post, heq, hs', hpre, hpost⟩ | hplain
        · refine Or.inr ⟨pre, s', post, heq, ?_, ?_, (hpre.append hpost).subTrans hside⟩
          · rw [hs'.role_eq]
            rfl
          · rw [hs'.toolCalls_eq]
            rfl
        · exact Or.inl (hplain.subTrans hside)

theorem summaryCompress_head (cnt : TokenCounter) (ps : Bool) (pr minCT : Nat)
    (summarize : String → Except String String) (m : Message) (rest : List Message)
    (budget : Nat) (hps : ps = true) (hsysr : m.role.isSystemish = true) :
    ∃ m' t, summaryCompress cnt ps pr minCT summarize (m :: rest) budget = m' :: t ∧
      Shrinks m' m := by
  have hsys : ps = true ∧ m.role.isSystemish = true := ⟨hps, hsysr⟩
  have h1 : (splitForSummary ps pr (m :: rest)).1 = [m] := by
    simp [splitForSummary, if_pos hsys]
  by_cases hhead : (splitForSummary ps pr (m :: rest)).2.1 = []
  · obtain ⟨m', t, hout, hs⟩ := lastCompress_head cnt ps minCT m rest budget hps hsysr
    exact ⟨m', t, by simp only [summaryCompress, if_pos hhead]; exact hout, hs⟩
  · simp only [summaryCompress, if_neg hhead]
    match hs : summarize (renderTranscript (splitForSummary ps pr (m :: rest)).2.1) with
    | .error e =>
      obtain ⟨m', t, hout, hsh⟩ := lastCompress_head cnt ps minCT m rest budget hps hsysr
      exact ⟨m', t, hout, hsh⟩
    | .ok s =>
      rw [h1]
      simp only [List.singleton_append]
      by_cases hfit : countMessages cnt
          (m :: mkSummaryMessage s :: (splitForSummary ps pr (m :: rest)).2.2) ≤ budget
      · refine ⟨m, mkSummaryMessage s :: (splitForSummary ps pr (m :: rest)).2.2,
          ?_, Shrinks.shrinksRfl m⟩
        simp [hfit]
      · obtain ⟨m', t, hout, hsh⟩ := lastCompress_head cnt ps minCT m
          (mkSummaryMessage s :: (splitForSummary ps pr (m :: rest)).2.2) budget hps hsysr
        refine ⟨m', t, ?_, hsh⟩
        simp only [if_neg hfit]
        exact hout

theorem summaryCompress_sys_overflow (cnt : TokenCounter) (ps : Bool) (pr minCT : Nat)
    (summarize : String → Except String String) (m : Message) (rest : List Message)
    (budget : Nat) (hps : ps = true) (hsysr : m.role.isSystemish = true)
    (hover : budget < countMessage cnt m) (htc : m.toolCalls = []) :
    summaryCompress cnt ps pr minCT summarize (m :: rest) budget
      = [splitMessage cnt m budget] := by
  have hsys : ps = true ∧ m.role.isSystemish = true := ⟨hps, hsysr⟩
  have h1 : (splitForSummary ps pr (m :: rest)).1 = [m] := by
    simp [splitForSummary, if_pos hsys]
  by_cases hhead : (splitForSummary ps pr (m :: rest)).2.1 = []
  · simp only [summaryCompress, if_pos hhead]
    exact lastCompress_sys_overflow cnt ps minCT m rest budget hps hsysr hover htc
  · simp only [summaryCompress, if_neg hhead]
    match hs : summarize (renderTranscript (splitForSummary ps pr (m :: rest)).2.1) with
    | .error e =>
      exact lastCompress_sys_overflow cnt ps minCT m rest budget hps hsysr hover htc
    | .ok s =>
      rw [h1]
      simp only [List.singleton_append]
      have hfit : ¬ countMessages cnt
          (m :: mkSummaryMessage s :: (splitForSummary ps pr (m :: rest)).2.2) ≤ budget := by
        rw [countMessages_cons]
        omega
      simp only [if_neg hfit]
      exact lastCompress_sys_overflow cnt ps minCT m
        (mkSummaryMessage s :: (splitForSummary ps pr (m :: rest)).2.2) budget
        hps hsysr hover htc

/-- A failing summarizer is recovered locally: the strategy degrades to
LastTruncationStrategy on the original conversation. -/
theorem summaryCompress_of_fail (cnt : TokenCounter) (ps : Bool) (pr minCT : Nat)
    (summarize : String → Except String String) (ms : List Message) (budget : Nat)
    (e : String)
    (hfail : summarize (renderTranscript (splitForSummary ps pr ms).2.1) = .error e) :
    summaryCompress cnt ps pr minCT summarize ms budget
      = lastCompress cnt ps minCT ms budget := by
  by_cases hhead : (splitForSummary ps pr ms).2.1 = []
  · simp only [summaryCompress, if_pos hhead]
  · simp only [summaryCompress, if_neg hhead, hfail]

/-! ## The strategy capability set and the manager's compress surface -/

/-- Modelled from the spec: the closed strategy capability set resolved once
at ReductionManager construction (§4.8, §9): first, last, selective and
summary, with their per-strategy configuration (the summarization capability
is carried by the summary variant). -/
inductive StrategyCfg where
  | first (preserveSystem : Bool)
  | last (preserveSystem : Bool) (minContentTokens : Nat)
  | selective (preserveSystem : Bool) (reducePct : Nat)
  | summary (preserveSystem : Bool) (preserveRecent : Nat)
      (summarize : String → Except String String)

def StrategyCfg.preserveSystem : StrategyCfg → Bool
  | .first ps => ps
  | .last ps _ => ps
  | .selective ps _ => ps
  | .summary ps _ _ => ps

def StrategyCfg.isSummary : StrategyCfg → Bool
  | .summary _ _ _ => true
  | _ => false

/-- Modelled from the spec: ReductionManager.compress — pure dispatch to the
configured strategy, its result returned unchanged (§4.8). -/
def compress (cnt : TokenCounter) : StrategyCfg → List Message → Nat → List Message
  | .first ps, ms, budget => firstCompress cnt ps ms budget
  | .last ps mct, ms, budget => lastCompress cnt ps mct ms budget
  | .selective ps pct, ms, budget => selectiveCompress cnt ps pct ms budget
  | .summary ps pr f, ms, budget =>
      summaryCompress cnt ps pr defaultMinContentTokens f ms budget

theorem compress_budget_of_atomic (cnt : TokenCounter) (cfg : StrategyCfg)
    (ms : List Message) (budget : Nat)
    (H : ∀ m ∈ ms, atomicCost cnt m ≤ budget) :
    countMessages cnt (compress cnt cfg ms budget) ≤ budget := by
  cases cfg with
  | first ps =>
    exact firstCompress_budget cnt ps ms budget (headAtomicOk_of_all cnt ps ms budget H)
  | last ps mct =>
    exact lastCompress_budget cnt ps mct ms budget (headAtomicOk_of_all cnt ps ms budget H)
  | selective ps pct => exact selectiveCompress_budget cnt ps pct ms budget H
  | summary ps pr f =>
    exact summaryCompress_budget cnt ps pr defaultMinContentTokens f ms budget
      (headAtomicOk_of_all cnt ps ms budget H)

theorem compress_shape (cnt : TokenCounter) (cfg : StrategyCfg)
    (ms : List Message) (budget : Nat) :
    ShrunkSub (compress cnt cfg ms budget) ms ∨
      (cfg.isSummary = true ∧ ∃ pre s post, compress cnt cfg ms budget
          = pre ++ s :: post ∧ s.role = Role.user ∧ s.toolCalls = [] ∧
        ShrunkSub (pre ++ post) ms) := by
  cases cfg with
  | first ps => exact Or.inl (firstCompress_sub cnt ps ms budget)
  | last ps mct => exact Or.inl (lastCompress_sub cnt ps mct ms budget)
  | selective ps pct => exact Or.inl (selectiveCompress_sub cnt ps pct ms budget)
  | summary ps pr f =>
    rcases summaryCompress_shape cnt ps pr defaultMinContentTokens f ms budget with
      h | h
    · exact Or.inl h
    · exact Or.inr ⟨Eq.refl true, h⟩

theorem compress_head (cnt : TokenCounter) (cfg : StrategyCfg)
    (m : Message) (rest : List Message) (budget : Nat)
    (hps : cfg.preserveSystem = true) (hsysr : m.role.isSystemish = true) :
    ∃ m' t, compress cnt cfg (m :: rest) budget = m' :: t ∧ Shrinks m' m := by
  cases cfg with
  | first ps => exact firstCompress_head cnt ps m rest budget hps hsysr
  | last ps mct => exact lastCompress_head cnt ps mct m rest budget hps hsysr
  | selective ps pct => exact selectiveCompress_head cnt ps pct m rest budget hps hsysr
  | summary ps pr f =>
    exact summaryCompress_head cnt ps pr defaultMinContentTokens f m rest budget hps hsysr

theorem compress_sys_overflow (cnt : TokenCounter) (cfg : StrategyCfg)
    (m : Message) (rest : List Message) (budget : Nat)
    (hps : cfg.preserveSystem = true) (hsysr : m.role.isSystemish = true)
    (hover : budget < countMessage cnt m) (htc : m.toolCalls = []) :
    compress cnt cfg (m :: rest) budget = [splitMessage cnt m budget] := by
  cases cfg with
  | first ps => exact firstCompress_sys_overflow cnt ps m rest budget hps hsysr hover htc
  | last ps mct =>
    exact lastCompress_sys_overflow cnt ps mct m rest budget hps hsysr hover htc
  | selective ps pct =>
    exact selectiveCompress_sys_overflow cnt ps pct m rest budget hps hsysr hover htc
  | summary ps pr f =>
    exact summaryCompress_sys_overflow cnt ps pr defaultMinContentTokens f m rest budget
      hps hsysr hover htc

theorem compress_all_nonsummary (cnt : TokenCounter) (cfg : StrategyCfg)
    (ms : List Message) (budget : Nat) (hns : cfg.isSummary = false)
    (hle : countMessages cnt ms ≤ budget) :
    compress cnt cfg ms budget = ms := by
  cases cfg with
  | first ps => exact firstCompress_all cnt ps ms budget hle
  | last ps mct => exact lastCompress_all cnt ps mct ms budget hle
  | selective ps pct => exact selectiveCompress_all cnt ps pct ms budget hle
  | summary ps pr f => cases hns

/-! ## Message representations accepted by the counter -/

/-- Modelled from the spec: a message supplied as a plain key/value record. -/
structure RecordMessage where
  role : Role
  content : Content
  toolCalls : List ToolCall
  toolCallId : Option String
deriving DecidableEq

/-- Modelled from the spec: a message supplied as a foreign object exposing
equivalent field accessors (such as an OpenAI ChatCompletionMessage). -/
structure ObjectMessage where
  getRole : Role
  getContent : Content
  getToolCalls : List ToolCall
  getToolCallId : Option String
deriving DecidableEq

def recordView : MessageView RecordMessage :=
  ⟨RecordMessage.role, RecordMessage.content,
    RecordMessage.toolCalls, RecordMessage.toolCallId⟩

def objectView : MessageView ObjectMessage :=
  ⟨ObjectMessage.getRole, ObjectMessage.getContent,
    ObjectMessage.getToolCalls, ObjectMessage.getToolCallId⟩

/-- Two representations carry the same data when every accessor agrees. -/
def agreesWith (r : RecordMessage) (o : ObjectMessage) : Prop :=
  r.role = o.getRole ∧ r.content = o.getContent ∧
    r.toolCalls = o.getToolCalls ∧ r.toolCallId = o.getToolCallId

instance (r : RecordMessage) (o : ObjectMessage) : Decidable (agreesWith r o) := by
  unfold agreesWith
  infer_instance

theorem countMessageVia_congr (cnt : TokenCounter) (r : RecordMessage)
    (o : ObjectMessage) (h : agreesWith r o) :
    countMessageVia cnt recordView r = countMessageVia cnt objectView o := by
  obtain ⟨h₁, h₂, h₃, h₄⟩ := h
  simp [countMessageVia, recordView, objectView, h₁, h₂, h₃, h₄]

/-! ## CachedTokenCounter -/

/-- Modelled from the spec: CachingTokenCounter — a base counter together
with its publicly accessible memoization map keyed by exact text (§4.2). -/
structure CachedTokenCounter where
  base : TokenCounter
  cache : List (String × Nat)

/-- Modelled from the spec: CachedTokenCounter.count — on a cache hit return
the stored value unchanged; on a miss compute through the base counter and
store `(text, count)` (§4.2).  Returns the count and the updated counter. -/
def cachedCount (c : CachedTokenCounter) (t : String) : Nat × CachedTokenCounter :=
  match c.cache.lookup t with
  | some n => (n, c)
  | Option.none => (c.base t, ⟨c.base, (t, c.base t) :: c.cache⟩)

theorem cachedCount_lookup (c : CachedTokenCounter) (t : String) :
    ((cachedCount c t).2).cache.lookup t = some (cachedCount c t).1 := by
  match h : c.cache.lookup t with
  | some n => simp [cachedCount, h]
  | Option.none => simp [cachedCount, h, List.lookup]

theorem cachedCount_of_lookup (c : CachedTokenCounter) (t : String) (n : Nat)
    (h : c.cache.lookup t = some n) : cachedCount c t = (n, c) := by
  simp [cachedCount, h]

/-- Counting any further string never removes or shadows a cached entry. -/
theorem cachedCount_preserves (c : CachedTokenCounter) (t u : String) (n : Nat)
    (h : c.cache.lookup t = some n) :
    ((cachedCount c u).2).cache.lookup t = some n := by
  match hu : c.cache.lookup u with
  | some k => simp [cachedCount, hu, h]
  | Option.none =>
    have htu : (t == u) = false := by
      cases hbe : t == u
      · rfl
      · exfalso
        have : t = u := by simpa using hbe
        rw [this, hu] at h
        cases h
    simp [cachedCount, hu, List.lookup, htu, h]

/-! ## A concrete executable token counter for witnesses -/

/-- A simple concrete counter (one token per character), used to evaluate the
engine on concrete conversations. -/
def cntLen : TokenCounter := fun s => s.length

/-! ## Concrete conversations used by the witnesses and counterexamples -/

def mSys : Message := ⟨Role.system, Content.str "sys", [], Option.none⟩

def mU1 : Message := ⟨Role.user, Content.str "hello", [], Option.none⟩

def mA1 : Message := ⟨Role.assistant, Content.str "hi", [], Option.none⟩

def mU2 : Message := ⟨Role.user, Content.str "more", [], Option.none⟩

def mA2 : Message := ⟨Role.assistant, Content.str "ok", [], Option.none⟩

/-- A five-message conversation shaped like the tests' fixture
(system, user, assistant, user, assistant). -/
def convFive : List Message := [mSys, mU1, mA1, mU2, mA2]

/-- A system message whose own cost exceeds the tiny budgets used below. -/
def mSysLong : Message := ⟨Role.system, Content.str "0123456789", [], Option.none⟩

/-- An assistant message carrying a tool call and no content, as in the
tests' tool-call fixtures. -/
def mAsstTC : Message :=
  ⟨Role.assistant, Content.absent, [⟨"call:1", "function", "get", "x"⟩], Option.none⟩

def mToolRes : Message := ⟨Role.tool, Content.str "Sunny", [], some "call:1"⟩

def convTools : List Message := [mSys, mU1, mAsstTC, mToolRes]

/-- A long user message used to trigger the boundary-shrink paths. -/
def mULong : Message :=
  ⟨Role.user, Content.str (String.mk (List.replicate 60 'x')), [], Option.none⟩

/-- A summarization capability that always succeeds with a fixed short text. -/
def summOk : String → Except String String := fun _ => Except.ok "sum"

/-- A summarization capability that always fails. -/
def summFail : String → Except String String := fun _ => Except.error "boom"

def recEx : RecordMessage := ⟨Role.user, Content.str "Hello!", [], Option.none⟩

def objEx : ObjectMessage := ⟨Role.user, Content.str "Hello!", [], Option.none⟩

def cacheEx : CachedTokenCounter := ⟨cntLen, []⟩

/-! ## The claims -/

/-- C1: For every reduction strategy (first, last, selective, summary) and
every input conversation that contains no single atomic unit whose own
accounted token cost exceeds the budget, the token count of
`compress(input)` is at most the configured budget. -/
theorem claim_C1 (cnt : TokenCounter) (cfg : StrategyCfg) (ms : List Message)
    (budget : Nat) (H : ∀ m ∈ ms, atomicCost cnt m ≤ budget) :
    countMessages cnt (compress cnt cfg ms budget) ≤ budget :=
  compress_budget_of_atomic cnt cfg ms budget H

theorem claim_C1_witness :
    (∀ m ∈ convFive, atomicCost cntLen m ≤ 30) ∧
      countMessages cntLen (compress cntLen (.first true) convFive 30) ≤ 30 :=
  ⟨by decide, claim_C1 cntLen (.first true) convFive 30 (by decide)⟩

/-- C2: For every strategy and every input conversation, the output is an
order-preserving (possibly content-shrunk) subsequence of the input, except
that the summary strategy may insert at most one synthetic summary message
(a user message without tool calls). -/
theorem claim_C2 (cnt : TokenCounter) (cfg : StrategyCfg) (ms : List Message)
    (budget : Nat) :
    ShrunkSub (compress cnt cfg ms budget) ms ∨
      (cfg.isSummary = true ∧ ∃ pre s post, compress cnt cfg ms budget
          = pre ++ s :: post ∧ s.role = Role.user ∧ s.toolCalls = [] ∧
        ShrunkSub (pre ++ post) ms) :=
  compress_shape cnt cfg ms budget

/-- C3: For every strategy, if `preserveSystem` is enabled and the input's
first message is a system/developer message, that message is present and
first in the output (content possibly shrunk) and never dropped; when its own
cost exceeds the entire budget (and it is shrinkable, carrying no tool
calls), the output is exactly that single message with its content shrunk to
fit the whole budget. -/
theorem claim_C3 (cnt : TokenCounter) (cfg : StrategyCfg) (m : Message)
    (rest : List Message) (budget : Nat)
    (hps : cfg.preserveSystem = true) (hsysr : m.role.isSystemish = true) :
    (∃ m' t, compress cnt cfg (m :: rest) budget = m' :: t ∧ Shrinks m' m) ∧
      (budget < countMessage cnt m → m.toolCalls = [] →
        compress cnt cfg (m :: rest) budget = [splitMessage cnt m budget]) :=
  ⟨compress_head cnt cfg m rest budget hps hsysr,
    fun hover htc => compress_sys_overflow cnt cfg m rest budget hps hsysr hover htc⟩

theorem claim_C3_witness :
    (StrategyCfg.last true 10).preserveSystem = true ∧
      mSysLong.role.isSystemish = true ∧ 12 < countMessage cntLen mSysLong ∧
      mSysLong.toolCalls = [] ∧
      compress cntLen (.last true 10) (mSysLong :: [mU1]) 12
        = [splitMessage cntLen mSysLong 12] :=
  ⟨Eq.refl _, Eq.refl _, by decide, Eq.refl _,
    (claim_C3 cntLen (.last true 10) mSysLong [mU1] 12 (Eq.refl _) (Eq.refl _)).2
      (by decide) (Eq.refl _)⟩

/-- C4: For every strategy and every input, no output message carries a
proper subset of its original tool calls: an output message that carries tool
calls is an input message kept whole (its tool-call list intact and its
content untouched). -/
theorem claim_C4 (cnt : TokenCounter) (cfg : StrategyCfg) (ms : List Message)
    (budget : Nat) (m' : Message) (hm : m' ∈ compress cnt cfg ms budget)
    (htc : m'.toolCalls ≠ []) : m' ∈ ms := by
  rcases compress_shape cnt cfg ms budget with h | ⟨hsum, pre, s, post, heq, hrole, hstc, hsub⟩
  · obtain ⟨m, hmem, hs⟩ := h.mem m' hm
    cases hs with
    | inl h' => rwa [h']
    | inr h' => exact absurd h'.2.2.1 htc
  · rw [heq] at hm
    rcases List.mem_append.mp hm with hpre | hspost
    · obtain ⟨m, hmem, hs⟩ := hsub.mem m' (List.mem_append_left post hpre)
      cases hs with
      | inl h' => rwa [h']
      | inr h' => exact absurd h'.2.2.1 htc
    · rcases List.mem_cons.mp hspost with hms | hpost
      · rw [hms] at htc
        exact absurd hstc htc
      · obtain ⟨m, hmem, hs⟩ := hsub.mem m' (List.mem_append_right pre hpost)
        cases hs with
        | inl h' => rwa [h']
        | inr h' => exact absurd h'.2.2.1 htc

theorem claim_C4_witness :
    mAsstTC ∈ compress cntLen (.last true 10) convTools 200 ∧
      mAsstTC.toolCalls ≠ [] ∧ mAsstTC ∈ convTools :=
  ⟨by decide, by decide,
    claim_C4 cntLen (.last true 10) convTools 200 mAsstTC (by decide) (by decide)⟩

/-- C5 (as frozen) is false: the summary strategy does not return an
under-budget conversation unchanged — with a non-empty head region it still
replaces the head with a synthetic summary.  Here `convFive` costs at most
1000 tokens, yet the summary strategy changes it. -/
theorem claim_C5_cex :
    countMessages cntLen convFive ≤ 1000 ∧
      compress cntLen (.summary true 2 summOk) convFive 1000 ≠ convFive :=
  ⟨by decide, by decide⟩

/-- C5 (amended): for the first, last and selective strategies — not the
summary strategy — an input whose accounted cost is at most the budget is
returned unchanged, and consequently a second pass over an already-compliant
result is the identity. -/
theorem claim_C5 (cnt : TokenCounter) (cfg : StrategyCfg) (ms : List Message)
    (budget : Nat) (hns : cfg.isSummary = false) :
    (countMessages cnt ms ≤ budget → compress cnt cfg ms budget = ms) ∧
      (countMessages cnt (compress cnt cfg ms budget) ≤ budget →
        compress cnt cfg (compress cnt cfg ms budget) budget
          = compress cnt cfg ms budget) :=
  ⟨fun h => compress_all_nonsummary cnt cfg ms budget hns h,
    fun h => compress_all_nonsummary cnt cfg _ budget hns h⟩

theorem claim_C5_witness :
    (StrategyCfg.first true).isSummary = false ∧
      countMessages cntLen convFive ≤ 1000 ∧
      compress cntLen (.first true) convFive 1000 = convFive :=
  ⟨Eq.refl _, by decide,
    (claim_C5 cntLen (.first true) convFive 1000 (Eq.refl _)).1 (by decide)⟩

/-- C6 (as frozen) is false: with a non-empty head region but a budget the
assembled result cannot fit, the summary strategy's finishing
last-truncation pass can drop the synthetic summary message entirely — here
the output is a single shrunk system message and contains no user-role
(summary) message at all. -/
theorem claim_C6_cex :
    (splitForSummary true 1 [mSysLong, mU1, mU2]).2.1 ≠ [] ∧
      summaryCompress cntLen true 1 10 summOk [mSysLong, mU1, mU2] 12
        = [⟨Role.system, Content.str "01", [], Option.none⟩] ∧
      ∀ m ∈ summaryCompress cntLen true 1 10 summOk [mSysLong, mU1, mU2] 12,
        m.role ≠ Role.user :=
  ⟨by decide, by decide, by decide⟩

/-- C6 (amended): for SummaryCompressionStrategy with a non-empty head
region, a succeeding summarizer, and an assembled result that fits the
budget, the output is exactly `[system?, summaryMessage, ...tail]`: the
reserved system part, one synthetic summary message of role `user` whose
content starts with the fixed marker, then the tail — a suffix of the input
of at most `preserveRecent` messages. -/
theorem claim_C6 (cnt : TokenCounter) (ps : Bool) (pr minCT : Nat)
    (f : String → Except String String) (ms : List Message) (budget : Nat)
    (s : String) (hhead : (splitForSummary ps pr ms).2.1 ≠ [])
    (hok : f (renderTranscript (splitForSummary ps pr ms).2.1) = .ok s)
    (hfit : countMessages cnt ((splitForSummary ps pr ms).1 ++ mkSummaryMessage s
        :: (splitForSummary ps pr ms).2.2) ≤ budget) :
    summaryCompress cnt ps pr minCT f ms budget
        = (splitForSummary ps pr ms).1 ++ mkSummaryMessage s
          :: (splitForSummary ps pr ms).2.2 ∧
      (mkSummaryMessage s).role = Role.user ∧
      Leads summaryMarker.data (contentText (mkSummaryMessage s).content).data ∧
      ∃ k, (splitForSummary ps pr ms).2.2 = ms.drop k ∧
        (splitForSummary ps pr ms).2.2.length ≤ pr := by
  refine ⟨?_, Eq.refl _, ⟨(" " ++ s).data, by
    simp [contentText, mkSummaryMessage, summaryMarker]⟩,
    splitForSummary_tail ps pr ms⟩
  simp only [summaryCompress, if_neg hhead, hok, if_pos hfit]

theorem claim_C6_witness :
    (splitForSummary true 2 convFive).2.1 ≠ [] ∧
      summOk (renderTranscript (splitForSummary true 2 convFive).2.1) = .ok "sum" ∧
      countMessages cntLen ((splitForSummary true 2 convFive).1
        ++ mkSummaryMessage "sum" :: (splitForSummary true 2 convFive).2.2) ≤ 1000 ∧
      summaryCompress cntLen true 2 10 summOk convFive 1000
        = (splitForSummary true 2 convFive).1 ++ mkSummaryMessage "sum"
          :: (splitForSummary true 2 convFive).2.2 :=
  ⟨by decide, Eq.refl _, by decide,
    (claim_C6 cntLen true 2 10 summOk convFive 1000 "sum" (by decide) (Eq.refl _)
      (by decide)).1⟩

/-- C7: if the injected summarizer fails, SummaryCompressionStrategy never
surfaces the failure: it returns exactly the result of LastTruncationStrategy
applied to the original conversation (the embedding is a total function, so
no error escapes). -/
theorem claim_C7 (cnt : TokenCounter) (ps : Bool) (pr minCT : Nat)
    (f : String → Except String String) (ms : List Message) (budget : Nat)
    (e : String) (hfail : ∀ t, f t = .error e) :
    summaryCompress cnt ps pr minCT f ms budget
      = lastCompress cnt ps minCT ms budget :=
  summaryCompress_of_fail cnt ps pr minCT f ms budget e (hfail _)

theorem claim_C7_witness :
    (∀ t, summFail t = Except.error "boom") ∧
      summaryCompress cntLen true 2 10 summFail convFive 20
        = lastCompress cntLen true 10 convFive 20 :=
  ⟨fun _ => Eq.refl _,
    claim_C7 cntLen true 2 10 summFail convFive 20 "boom" (fun _ => Eq.refl _)⟩

/-- C8: in LastTruncationStrategy's back-to-front walk, a boundary message
that does not fit is shrunk only when the remaining budget is at least
`minContentTokens`: with a smaller remaining budget shrinking is skipped
entirely and the message (with everything older) is dropped, so no boundary
message is ever shrunk under a remaining budget below the threshold; with a
sufficient remaining budget a shrinkable boundary message is handed to the
splitter against the remaining budget. -/
theorem claim_C8 (cnt : TokenCounter) (minCT : Nat) (m : Message)
    (restRev : List Message) (rem : Nat)
    (hnofit : ¬ countMessage cnt m ≤ rem) :
    (rem < minCT → lastWalk cnt minCT (m :: restRev) rem = []) ∧
      (minCT ≤ rem → m.toolCalls = [] →
        lastWalk cnt minCT (m :: restRev) rem
          = if countMessage cnt (splitMessage cnt m rem) ≤ rem
            then [splitMessage cnt m rem] else []) := by
  constructor
  · intro hlt
    have hnand : ¬ (minCT ≤ rem ∧ m.toolCalls = []) := fun hand => by omega
    simp only [lastWalk, if_neg hnofit, if_neg hnand]
  · intro hge htc
    simp only [lastWalk, if_neg hnofit, if_pos (And.intro hge htc)]

theorem claim_C8_witness :
    ¬ countMessage cntLen mULong ≤ 30 ∧ 30 < 50 ∧
      lastWalk cntLen 50 (mULong :: [mU1]) 30 = [] :=
  ⟨by decide, by decide, (claim_C8 cntLen 50 mULong [mU1] 30 (by decide)).1 (by decide)⟩

/-- C9: token accounting is representation-independent — a conversation of
plain key/value records and a conversation of foreign accessor objects that
carry the same data are counted to the same (non-negative, `Nat`) total. -/
theorem claim_C9 (cnt : TokenCounter) (rs : List RecordMessage)
    (os : List ObjectMessage) (h : List.Forall₂ agreesWith rs os) :
    countMessagesVia cnt recordView rs = countMessagesVia cnt objectView os := by
  induction h with
  | nil => rfl
  | cons hag hrest ih =>
    simp only [countMessagesVia, List.map_cons, List.sum_cons] at ih ⊢
    rw [countMessageVia_congr cnt _ _ hag, ih]

theorem claim_C9_witness :
    List.Forall₂ agreesWith [recEx] [objEx] ∧
      countMessagesVia cntLen recordView [recEx]
        = countMessagesVia cntLen objectView [objEx] :=
  ⟨List.Forall₂.cons (by decide) List.Forall₂.nil,
    claim_C9 cntLen [recEx] [objEx] (List.Forall₂.cons (by decide) List.Forall₂.nil)⟩

/-- C10: after `count(text)` the exact text is a key of the counter's
publicly accessible cache mapped to the returned value; any state that still
stores that value answers an identical call with the same value, unchanged;
and counting any other text never removes or shadows the stored entry — so
every subsequent call with an identical string returns the first call's
value. -/
theorem claim_C10 (c : CachedTokenCounter) (t : String) :
    ((cachedCount c t).2).cache.lookup t = some (cachedCount c t).1 ∧
      (∀ d : CachedTokenCounter, d.cache.lookup t = some (cachedCount c t).1 →
        cachedCount d t = ((cachedCount c t).1, d)) ∧
      (∀ (d : CachedTokenCounter) (u : String) (n : Nat),
        d.cache.lookup t = some n →
        ((cachedCount d u).2).cache.lookup t = some n) :=
  ⟨cachedCount_lookup c t,
    fun d h => cachedCount_of_lookup d t _ h,
    fun d u n h => cachedCount_preserves d t u n h⟩

theorem claim_C10_witness :
    ((cachedCount cacheEx "ab").2).cache.lookup "ab"
        = some (cachedCount cacheEx "ab").1 ∧
      cachedCount (cachedCount cacheEx "ab").2 "ab"
        = ((cachedCount cacheEx "ab").1, (cachedCount cacheEx "ab").2) :=
  ⟨(claim_C10 cacheEx "ab").1,
    (claim_C10 cacheEx "ab").2.1 _ (claim_C10 cacheEx "ab").1⟩

end Effimemo
